import Mathlib

/-!
Verification of the `upy_serial_cli` host-side protocol layer and the
device-side `cli_module` helpers, embedded shallowly over `List Char`
(Python `str` values are modelled as their character lists).

Python string printers used by the embedding:
* `str.split(sep)` for a non-empty `sep` is `pysplit` (leftmost-first,
  non-overlapping occurrences);
* `sep.join(parts)` is `pyjoin`;
* `str.replace(old, new)` for a non-empty `old` is `pyreplace`;
* `str.strip()` is `pystrip`.
All recursive scanners take an explicit fuel argument that is initialised
to the scanned list's length, which is always sufficient; fuel-irrelevance
lemmas recover the intended semantics.
-/

deriving instance DecidableEq for Except

/-- Does `p` occur at the very beginning of `s`?  Models Python
`s.startswith(p)` and is the matching step of `split`/`replace`. -/
def startsWith : List Char → List Char → Bool
  | [], _ => true
  | _ :: _, [] => false
  | p :: ps, c :: cs => if p = c then startsWith ps cs else false

/-- Does `sep` occur (contiguously) anywhere inside `s`?  Models Python
`sep in s` for a non-empty `sep`. -/
def hasSub (sep : List Char) : List Char → Bool
  | [] => sep.isEmpty
  | c :: cs => startsWith sep (c :: cs) || hasSub sep cs

/-- Fuel-driven scanner behind `pysplit`: `acc` is the reversed current
token.  On a separator match the scanner skips the whole separator
(`List.drop (sep.length - 1) cs` together with discarding `c`). -/
def splitGo (sep : List Char) : Nat → List Char → List Char → List (List Char)
  | _, acc, [] => [acc.reverse]
  | 0, acc, rest => [acc.reverse ++ rest]
  | fuel + 1, acc, c :: cs =>
    if startsWith sep (c :: cs) then
      acc.reverse :: splitGo sep fuel [] (List.drop (sep.length - 1) cs)
    else
      splitGo sep fuel (c :: acc) cs

/-- Python `s.split(sep)` for a non-empty separator. -/
def pysplit (sep s : List Char) : List (List Char) :=
  splitGo sep s.length [] s

/-- Python `sep.join(parts)`. -/
def pyjoin (sep : List Char) : List (List Char) → List Char
  | [] => []
  | [p] => p
  | p :: q :: ps => p ++ sep ++ pyjoin sep (q :: ps)

/-- Fuel-driven scanner behind `pyreplace`. -/
def replGo (old new : List Char) : Nat → List Char → List Char
  | _, [] => []
  | 0, s => s
  | fuel + 1, c :: cs =>
    if startsWith old (c :: cs) then
      new ++ replGo old new fuel (List.drop (old.length - 1) cs)
    else
      c :: replGo old new fuel cs

/-- Python `s.replace(old, new)` for a non-empty `old`: replaces the
leftmost-first non-overlapping occurrences. -/
def pyreplace (old new s : List Char) : List Char :=
  replGo old new s.length s

/-- The characters Python `str.strip()` removes (`string.whitespace`). -/
def isPySpace (c : Char) : Bool :=
  c = ' ' || c = '\t' || c = '\n' || c = '\r' || c = '\x0b' || c = '\x0c'

/-- Python `s.strip()`. -/
def pystrip (s : List Char) : List Char :=
  ((s.dropWhile isPySpace).reverse.dropWhile isPySpace).reverse

theorem startsWith_append_self (p b : List Char) : startsWith p (p ++ b) = true := by
  induction p with
  | nil => rfl
  | cons c cs ih => simp [startsWith, ih]

theorem startsWith_exists {p s : List Char} (h : startsWith p s = true) :
    ∃ t, s = p ++ t := by
  induction p generalizing s with
  | nil => exact ⟨s, rfl⟩
  | cons c cs ih =>
    cases s with
    | nil => simp [startsWith] at h
    | cons d ds =>
      simp only [startsWith] at h
      split at h
      · obtain ⟨t, ht⟩ := ih h
        subst ht
        rename_i hc
        exact ⟨t, by simp [hc]⟩
      · simp at h

theorem hasSub_of_startsWith {sep s : List Char} (h : startsWith sep s = true) :
    hasSub sep s = true := by
  cases s with
  | nil =>
    cases sep with
    | nil => rfl
    | cons c cs => simp [startsWith] at h
  | cons c cs => simp [hasSub, h]

theorem hasSub_cons_of_tail {sep : List Char} (c : Char) {cs : List Char}
    (h : hasSub sep cs = true) : hasSub sep (c :: cs) = true := by
  simp [hasSub, h]

theorem startsWith_take {p s : List Char} {n : Nat} (hn : p.length ≤ n)
    (h : startsWith p s = true) : startsWith p (s.take n) = true := by
  induction p generalizing s n with
  | nil => rfl
  | cons c cs ih =>
    cases s with
    | nil => simp [startsWith] at h
    | cons d ds =>
      cases n with
      | zero => simp at hn
      | succ m =>
        simp only [startsWith] at h ⊢
        split at h
        · rename_i hc
          simp only [List.take, startsWith, if_pos hc]
          exact ih (by simpa using hn) h
        · simp at h

theorem take_len_add (a x : List Char) (k : Nat) :
    (a ++ x).take (a.length + k) = a ++ x.take k := by
  induction a with
  | nil => simp
  | cons c cs ih => simp [List.take, Nat.succ_add, ih]

theorem take_of_le_length {x : List Char} (b : List Char) {k : Nat} (hk : k ≤ x.length) :
    (x ++ b).take k = x.take k := by
  induction x generalizing k with
  | nil =>
    have : k = 0 := by simpa using hk
    simp [this]
  | cons c cs ih =>
    cases k with
    | zero => simp
    | succ m => simp [List.take, ih (by simpa using hk)]

theorem hasSub_head_of_startsWith {sep b : List Char} (a : List Char)
    (ha : a ≠ []) (hsep : sep ≠ [])
    (h : startsWith sep (a ++ sep ++ b) = true) :
    hasSub sep (a ++ sep.dropLast) = true := by
  have hlen : sep.length ≤ a.length + (sep.length - 1) := by
    have h1 : 1 ≤ a.length := by
      cases a with
      | nil => simp at ha
      | cons _ _ => simp
    have h2 : 1 ≤ sep.length := by
      cases sep with
      | nil => simp at hsep
      | cons _ _ => simp
    omega
  have htake := startsWith_take hlen (by simpa [List.append_assoc] using h)
  have heq : (a ++ (sep ++ b)).take (a.length + (sep.length - 1)) = a ++ sep.dropLast := by
    rw [take_len_add, take_of_le_length b (by omega), List.dropLast_eq_take]
  rw [heq] at htake
  exact hasSub_of_startsWith htake

theorem splitGo_nil (sep : List Char) (f : Nat) (acc : List Char) :
    splitGo sep f acc [] = [acc.reverse] := by
  cases f <;> rfl

theorem splitGo_fuel (sep : List Char) :
    ∀ (f₁ f₂ : Nat) (acc s : List Char), s.length ≤ f₁ → s.length ≤ f₂ →
      splitGo sep f₁ acc s = splitGo sep f₂ acc s := by
  intro f₁
  induction f₁ with
  | zero =>
    intro f₂ acc s h1 _
    have : s = [] := by
      cases s with
      | nil => rfl
      | cons c cs => simp at h1
    subst this
    simp [splitGo_nil]
  | succ g ih =>
    intro f₂ acc s h1 h2
    cases s with
    | nil => simp [splitGo_nil]
    | cons c cs =>
      cases f₂ with
      | zero => simp at h2
      | succ g₂ =>
        simp only [splitGo]
        split
        · have hlen : (List.drop (sep.length - 1) cs).length ≤ g := by
            simp only [List.length_drop]
            simp at h1
            omega
          have hlen₂ : (List.drop (sep.length - 1) cs).length ≤ g₂ := by
            simp only [List.length_drop]
            simp at h2
            omega
          rw [ih g₂ [] _ hlen hlen₂]
        · exact ih g₂ (c :: acc) cs (by simpa using h1) (by simpa using h2)

theorem splitGo_length_pos (sep : List Char) :
    ∀ (f : Nat) (acc s : List Char), 1 ≤ (splitGo sep f acc s).length := by
  intro f
  induction f with
  | zero =>
    intro acc s
    cases s <;> simp [splitGo]
  | succ g ih =>
    intro acc s
    cases s with
    | nil => simp [splitGo_nil]
    | cons c cs =>
      simp only [splitGo]
      split
      · simp
      · exact ih (c :: acc) cs

theorem splitGo_nosub {sep : List Char} :
    ∀ (f : Nat) (acc s : List Char), s.length ≤ f → hasSub sep s = false →
      splitGo sep f acc s = [acc.reverse ++ s] := by
  intro f
  induction f with
  | zero =>
    intro acc s h1 _
    cases s with
    | nil => simp [splitGo_nil]
    | cons c cs => simp at h1
  | succ g ih =>
    intro acc s h1 h2
    cases s with
    | nil => simp [splitGo_nil]
    | cons c cs =>
      simp only [hasSub, Bool.or_eq_false_iff] at h2
      simp only [splitGo, h2.1, if_false]
      rw [ih (c :: acc) cs (by simpa using h1) h2.2]
      simp

theorem pysplit_nosub {sep s : List Char} (h : hasSub sep s = false) :
    pysplit sep s = [s] := by
  have := @splitGo_nosub sep s.length [] s (Nat.le_refl _) h
  simpa [pysplit] using this

theorem splitGo_append_sep {sep b : List Char} (hsep : sep ≠ []) :
    ∀ (a : List Char), hasSub sep (a ++ sep.dropLast) = false →
      ∀ (f : Nat) (acc : List Char), (a ++ sep ++ b).length ≤ f →
        splitGo sep f acc (a ++ sep ++ b) = (acc.reverse ++ a) :: pysplit sep b := by
  intro a
  induction a with
  | nil =>
    intro _ f acc hf
    obtain ⟨s0, sep', rfl⟩ : ∃ s0 sep', sep = s0 :: sep' := by
      cases sep with
      | nil => simp at hsep
      | cons s0 sep' => exact ⟨s0, sep', rfl⟩
    simp only [List.nil_append] at hf ⊢
    cases f with
    | zero => simp at hf
    | succ g =>
      have hsw : startsWith (s0 :: sep') ((s0 :: sep') ++ b) = true :=
        startsWith_append_self _ _
      simp only [List.cons_append, splitGo, List.append_eq] at hsw ⊢
      rw [if_pos hsw]
      have hdrop : List.drop ((s0 :: sep').length - 1) (sep' ++ b) = b := by
        simp only [List.length_cons, Nat.succ_sub_one]
        exact List.drop_left sep' b
      rw [hdrop]
      have : splitGo (s0 :: sep') g [] b = pysplit (s0 :: sep') b := by
        apply splitGo_fuel
        · simp at hf; omega
        · exact Nat.le_refl _
      rw [this]
      simp
  | cons c a' ih =>
    intro ha f acc hf
    cases f with
    | zero => simp at hf
    | succ g =>
      have hsw : startsWith sep (c :: (a' ++ sep ++ b)) = false := by
        cases h' : startsWith sep (c :: (a' ++ sep ++ b)) with
        | false => rfl
        | true =>
          have := hasSub_head_of_startsWith (c :: a') (by simp) hsep
            (by simpa [List.append_assoc] using h')
          rw [List.cons_append] at ha this
          rw [this] at ha
          exact ha
      have ha' : hasSub sep (a' ++ sep.dropLast) = false := by
        simp only [List.cons_append, hasSub, Bool.or_eq_false_iff] at ha
        exact ha.2
      simp only [List.cons_append, splitGo, hsw, if_false, List.append_eq]
      rw [ih ha' g (c :: acc) (by simp at hf ⊢; omega)]
      simp

theorem pysplit_append_sep {sep a b : List Char} (hsep : sep ≠ [])
    (ha : hasSub sep (a ++ sep.dropLast) = false) :
    pysplit sep (a ++ sep ++ b) = a :: pysplit sep b := by
  have := splitGo_append_sep hsep a ha (a ++ sep ++ b).length [] (Nat.le_refl _)
  simpa [pysplit] using this

theorem splitGo_two_le {sep : List Char} (hsep : sep ≠ []) :
    ∀ (f : Nat) (acc s : List Char), s.length ≤ f → hasSub sep s = true →
      2 ≤ (splitGo sep f acc s).length := by
  intro f
  induction f with
  | zero =>
    intro acc s h1 h2
    cases s with
    | nil =>
      simp only [hasSub, List.isEmpty_iff] at h2
      exact absurd h2 hsep
    | cons c cs => simp at h1
  | succ g ih =>
    intro acc s h1 h2
    cases s with
    | nil =>
      simp only [hasSub, List.isEmpty_iff] at h2
      exact absurd h2 hsep
    | cons c cs =>
      simp only [splitGo]
      split
      · have := splitGo_length_pos sep g [] (List.drop (sep.length - 1) cs)
        simp
        omega
      · rename_i hsw
        simp only [hasSub, Bool.or_eq_true] at h2
        rcases h2 with h2 | h2
        · exact absurd h2 hsw
        · exact ih (c :: acc) cs (by simpa using h1) h2

theorem pysplit_length_eq_one_iff {sep s : List Char} (hsep : sep ≠ []) :
    (pysplit sep s).length = 1 ↔ hasSub sep s = false := by
  constructor
  · intro h
    cases h2 : hasSub sep s with
    | false => rfl
    | true =>
      have := splitGo_two_le hsep s.length [] s (Nat.le_refl _) h2
      simp only [pysplit] at h
      omega
  · intro h
    simp [pysplit_nosub h]

/-- The transport line terminator typed by the host before every
statement and split away by `extract_results`. -/
def CRLF : List Char := ['\r', '\n']

/-- Header marking the start of a device result (`upy_serial_cli.BEG_RES`). -/
def BEG_RES : List Char := "##### BEGIN RESULTS #####".data

/-- Footer marking the end of a device result (`upy_serial_cli.END_RES`). -/
def END_RES : List Char := "##### END RESULTS #####".data

/-- Replacing every (leftmost-first) CRLF pair by a single LF: the
normalization step `res_str.split("\r\n")` followed by `"\n".join(...)`
performs, in direct-recursive form (proved equal in
`pyjoin_pysplit_normCRLF`). -/
def normCRLF : List Char → List Char
  | [] => []
  | [c] => [c]
  | c :: d :: cs =>
    if c = '\r' ∧ d = '\n' then '\n' :: normCRLF cs else c :: normCRLF (d :: cs)

theorem normCRLF_cons_of_not_crlf {c : Char} {cs : List Char}
    (h : startsWith CRLF (c :: cs) = false) : normCRLF (c :: cs) = c :: normCRLF cs := by
  cases cs with
  | nil => rfl
  | cons d ds =>
    have : ¬(c = '\r' ∧ d = '\n') := by
      rintro ⟨rfl, rfl⟩
      simp [startsWith, CRLF] at h
    simp [normCRLF, this]

theorem pyjoin_splitGo_normCRLF :
    ∀ (f : Nat) (s acc : List Char), s.length ≤ f →
      pyjoin ['\n'] (splitGo CRLF f acc s) = acc.reverse ++ normCRLF s := by
  intro f
  induction f with
  | zero =>
    intro s acc h
    cases s with
    | nil => simp [splitGo_nil, pyjoin, normCRLF]
    | cons c cs => simp at h
  | succ g ih =>
    intro s acc h
    cases s with
    | nil => simp [splitGo_nil, pyjoin, normCRLF]
    | cons c cs =>
      cases hsw : startsWith CRLF (c :: cs) with
      | true =>
        obtain ⟨t, ht⟩ := startsWith_exists hsw
        have hc : c = '\r' ∧ cs = '\n' :: t := by
          rw [show CRLF ++ t = '\r' :: '\n' :: t from rfl] at ht
          exact ⟨by injection ht, by injection ht with _ h2⟩
        obtain ⟨rfl, rfl⟩ := hc
        simp only [splitGo, hsw, if_true]
        have hdrop : List.drop (CRLF.length - 1) ('\n' :: t) = t := rfl
        rw [hdrop]
        obtain ⟨y, l, hyl⟩ : ∃ y l, splitGo CRLF g [] t = y :: l := by
          cases hx : splitGo CRLF g [] t with
          | nil =>
            have := splitGo_length_pos CRLF g [] t
            rw [hx] at this
            simp at this
          | cons y l => exact ⟨y, l, rfl⟩
        have hlen : t.length ≤ g := by simp at h; omega
        have := ih t [] hlen
        rw [hyl] at this ⊢
        simp only [pyjoin, List.reverse_nil, List.nil_append] at this
        simp only [pyjoin, this]
        simp [normCRLF]
      | false =>
        simp only [splitGo]
        rw [if_neg (by simp [hsw])]
        rw [ih cs (c :: acc) (by simpa using h)]
        rw [normCRLF_cons_of_not_crlf hsw]
        simp

theorem pyjoin_pysplit_normCRLF (s : List Char) :
    pyjoin ['\n'] (pysplit CRLF s) = normCRLF s := by
  have := pyjoin_splitGo_normCRLF s.length s [] (Nat.le_refl _)
  simpa [pysplit] using this

theorem startsWith_normCRLF :
    ∀ (t m : List Char), ('\r' ∉ m) → ('\n' ∉ m) →
      startsWith m (normCRLF t) = startsWith m t := by
  intro t
  induction t using normCRLF.induct with
  | case1 => intro m _ _; rfl
  | case2 c => intro m _ _; simp [normCRLF]
  | case3 c d cs h ih =>
    obtain ⟨rfl, rfl⟩ := h
    intro m hr hn
    cases m with
    | nil => simp [startsWith]
    | cons m0 m' =>
      have h1 : m0 ≠ '\n' := by simp at hn; tauto
      have h2 : m0 ≠ '\r' := by simp at hr; tauto
      simp [normCRLF, startsWith, h1, h2]
  | case4 c d cs h ih =>
    intro m hr hn
    have hnorm : normCRLF (c :: d :: cs) = c :: normCRLF (d :: cs) := by
      simp [normCRLF, h]
    rw [hnorm]
    cases m with
    | nil => rfl
    | cons m0 m' =>
      simp only [startsWith]
      by_cases hc : m0 = c
      · rw [if_pos hc, if_pos hc, ih m' (by simp at hr; tauto) (by simp at hn; tauto)]
      · rw [if_neg hc, if_neg hc]

theorem hasSub_normCRLF :
    ∀ (t m : List Char), m ≠ [] → ('\r' ∉ m) → ('\n' ∉ m) →
      hasSub m (normCRLF t) = hasSub m t := by
  intro t
  induction t using normCRLF.induct with
  | case1 => intro m _ _ _; rfl
  | case2 c => intro m _ _ _; simp [normCRLF]
  | case3 c d cs h ih =>
    obtain ⟨rfl, rfl⟩ := h
    intro m hm hr hn
    obtain ⟨m0, m', rfl⟩ : ∃ m0 m', m = m0 :: m' := by
      cases m with
      | nil => simp at hm
      | cons m0 m' => exact ⟨m0, m', rfl⟩
    have h1 : m0 ≠ '\n' := by simp at hn; tauto
    have h2 : m0 ≠ '\r' := by simp at hr; tauto
    have e : normCRLF ('\r' :: '\n' :: cs) = '\n' :: normCRLF cs := by simp [normCRLF]
    rw [e]
    simp only [hasSub, startsWith, h1, h2, if_false, Bool.false_or]
    exact ih (m0 :: m') hm hr hn
  | case4 c d cs h ih =>
    intro m hm hr hn
    have hnorm : normCRLF (c :: d :: cs) = c :: normCRLF (d :: cs) := by
      simp [normCRLF, h]
    rw [hnorm]
    obtain ⟨m0, m', rfl⟩ : ∃ m0 m', m = m0 :: m' := by
      cases m with
      | nil => simp at hm
      | cons m0 m' => exact ⟨m0, m', rfl⟩
    simp only [hasSub]
    rw [ih (m0 :: m') hm hr hn]
    have hsw : startsWith (m0 :: m') (c :: normCRLF (d :: cs)) =
        startsWith (m0 :: m') (c :: d :: cs) := by
      simp only [startsWith]
      by_cases hc : m0 = c
      · rw [if_pos hc, if_pos hc,
          startsWith_normCRLF (d :: cs) m' (by simp at hr; tauto) (by simp at hn; tauto)]
      · rw [if_neg hc, if_neg hc]
    rw [hsw]
    simp only [hasSub]

theorem head?_append_left (m x : List Char) (hm : m ≠ []) :
    (m ++ x).head? = m.head? := by
  cases m with
  | nil => simp at hm
  | cons c cs => rfl

theorem normCRLF_append_of_head (a b : List Char) (hb : b.head? ≠ some '\n') :
    normCRLF (a ++ b) = normCRLF a ++ normCRLF b := by
  induction a using normCRLF.induct with
  | case1 => simp [normCRLF]
  | case2 c =>
    cases b with
    | nil => simp [normCRLF]
    | cons d b' =>
      have hd : d ≠ '\n' := by simpa using hb
      simp only [List.cons_append, List.nil_append]
      rw [show normCRLF (c :: d :: b') = c :: normCRLF (d :: b') from by
        simp [normCRLF]; tauto]
      simp [normCRLF]
  | case3 c d cs h ih =>
    obtain ⟨rfl, rfl⟩ := h
    simp only [List.cons_append]
    rw [show normCRLF ('\r' :: '\n' :: (cs ++ b)) = '\n' :: normCRLF (cs ++ b) from by
      simp [normCRLF]]
    rw [ih]
    simp [normCRLF]
  | case4 c d cs h ih =>
    simp only [List.cons_append]
    rw [show normCRLF (c :: d :: (cs ++ b)) = c :: normCRLF (d :: (cs ++ b)) from by
      simp [normCRLF, h]]
    rw [show (d :: (cs ++ b) : List Char) = (d :: cs) ++ b from rfl, ih]
    rw [show normCRLF (c :: d :: cs) = c :: normCRLF (d :: cs) from by simp [normCRLF, h]]
    simp

theorem normCRLF_append_of_getLast (a b : List Char) (ha : a.getLast? ≠ some '\r') :
    normCRLF (a ++ b) = normCRLF a ++ normCRLF b := by
  induction a using normCRLF.induct with
  | case1 => simp [normCRLF]
  | case2 c =>
    have hc : c ≠ '\r' := by simpa using ha
    cases b with
    | nil => simp [normCRLF]
    | cons d b' =>
      simp only [List.cons_append, List.nil_append]
      rw [show normCRLF (c :: d :: b') = c :: normCRLF (d :: b') from by
        simp [normCRLF]; tauto]
      simp [normCRLF]
  | case3 c d cs h ih =>
    obtain ⟨rfl, rfl⟩ := h
    simp only [List.cons_append]
    rw [show normCRLF ('\r' :: '\n' :: (cs ++ b)) = '\n' :: normCRLF (cs ++ b) from by
      simp [normCRLF]]
    cases cs with
    | nil =>
      simp [normCRLF]
    | cons e cs' =>
      have ha' : (e :: cs').getLast? ≠ some '\r' := by
        rw [List.getLast?_cons_cons, List.getLast?_cons_cons] at ha
        exact ha
      rw [ih ha']
      rw [show normCRLF ('\r' :: '\n' :: e :: cs') = '\n' :: normCRLF (e :: cs') from by
        simp [normCRLF]]
      simp
  | case4 c d cs h ih =>
    have ha' : (d :: cs).getLast? ≠ some '\r' := by
      rw [List.getLast?_cons_cons] at ha
      exact ha
    simp only [List.cons_append]
    rw [show normCRLF (c :: d :: (cs ++ b)) = c :: normCRLF (d :: (cs ++ b)) from by
      simp [normCRLF, h]]
    rw [show (d :: (cs ++ b) : List Char) = (d :: cs) ++ b from rfl, ih ha']
    rw [show normCRLF (c :: d :: cs) = c :: normCRLF (d :: cs) from by simp [normCRLF, h]]
    simp

/-- Host-side result extraction (`upy_serial_cli.extract_results`): the
raw output is split on `"\r\n"` and re-joined with `"\n"`, then split on
`BEG_RES` -- a single part raises `ValueError("No results found")` -- the
remaining parts are joined with `""`, split on `END_RES` -- a single part
raises `ValueError("Result incomplete")` -- and the parts before the last
`END_RES` occurrence are joined with `""`.  The `error`-and-exit path
taken for a raised `ValueError` is modelled as `Except.error` carrying
the exception message. -/
def extract_results (res_str : List Char) : Except (List Char) (List Char) :=
  let r1 := pyjoin ['\n'] (pysplit CRLF res_str)
  let p1 := pysplit BEG_RES r1
  if p1.length = 1 then .error ("No results found".data)
  else
    let p2 := pysplit END_RES (List.flatten (p1.drop 1))
    if p2.length = 1 then .error ("Result incomplete".data)
    else .ok (List.flatten p2.dropLast)

/-- C1 -- the claim fails as stated: on the spec's own example input the
function returns the text between the markers with the CRLF sequences
already normalized to LF, which differs both from the raw text strictly
between the markers and from the bare payload `hostname: esp-01` claimed
to be printed. -/
theorem c1_counterexample :
    extract_results
        ("##### BEGIN RESULTS #####\r\nhostname: esp-01\r\n##### END RESULTS #####\r\n".data) =
      .ok ("\nhostname: esp-01\n".data)
    ∧ ("\nhostname: esp-01\n".data ≠ "\r\nhostname: esp-01\r\n".data)
    ∧ ("\nhostname: esp-01\n".data ≠ "hostname: esp-01".data) := by
  refine ⟨by decide, by decide, by decide⟩

/-- C1 (amended) -- for a device output with exactly one `BEG_RES`/`END_RES`
pair (`BEG_RES` before `END_RES`), `extract_results` succeeds and returns
the text strictly between the two markers with every CRLF normalized to
LF, regardless of the noise before `BEG_RES` and after `END_RES`. -/
theorem c1_extract_between_markers (pre mid post : List Char)
    (h1 : hasSub BEG_RES (normCRLF pre ++ BEG_RES.dropLast) = false)
    (h2 : hasSub BEG_RES (normCRLF mid ++ END_RES ++ normCRLF post) = false)
    (h3 : hasSub END_RES (normCRLF mid ++ END_RES.dropLast) = false)
    (h4 : hasSub END_RES (normCRLF post) = false) :
    extract_results (pre ++ BEG_RES ++ mid ++ END_RES ++ post) = .ok (normCRLF mid) := by
  have hBne : BEG_RES ≠ [] := by decide
  have hEne : END_RES ≠ [] := by decide
  have e1 : normCRLF (END_RES ++ post) = END_RES ++ normCRLF post := by
    rw [normCRLF_append_of_getLast END_RES post (by decide)]
    rw [show normCRLF END_RES = END_RES from by decide]
  have e2 : normCRLF (mid ++ (END_RES ++ post)) = normCRLF mid ++ (END_RES ++ normCRLF post) := by
    rw [normCRLF_append_of_head mid (END_RES ++ post)
      (by rw [head?_append_left _ _ hEne]; decide), e1]
  have e3 : normCRLF (BEG_RES ++ (mid ++ (END_RES ++ post))) =
      BEG_RES ++ (normCRLF mid ++ (END_RES ++ normCRLF post)) := by
    rw [normCRLF_append_of_getLast BEG_RES _ (by decide),
      show normCRLF BEG_RES = BEG_RES from by decide, e2]
  have hnorm : normCRLF (pre ++ BEG_RES ++ mid ++ END_RES ++ post) =
      normCRLF pre ++ BEG_RES ++ (normCRLF mid ++ END_RES ++ normCRLF post) := by
    rw [show pre ++ BEG_RES ++ mid ++ END_RES ++ post =
        pre ++ (BEG_RES ++ (mid ++ (END_RES ++ post))) from by simp [List.append_assoc]]
    rw [normCRLF_append_of_head pre _ (by rw [head?_append_left _ _ hBne]; decide), e3]
    simp [List.append_assoc]
  simp only [extract_results, pyjoin_pysplit_normCRLF, hnorm]
  rw [pysplit_append_sep hBne h1, pysplit_nosub h2]
  simp only [List.length_cons, List.length_singleton, List.drop_succ_cons, List.drop_zero,
    List.flatten_cons, List.flatten_nil, List.append_nil]
  rw [if_neg (by decide)]
  rw [pysplit_append_sep hEne h3, pysplit_nosub h4]
  simp only [List.length_cons, List.length_singleton]
  rw [if_neg (by decide)]
  simp [List.dropLast]

/-- C1 (witness) -- the amended theorem applied to the spec example with
leading noise: the payload comes back with CRLFs normalized to LF. -/
theorem c1_extract_between_markers_witness :
    extract_results
        (("noise".data) ++ BEG_RES ++ ("\r\nhostname: esp-01\r\n".data) ++ END_RES ++ ("\r\n".data)) =
      .ok ("\nhostname: esp-01\n".data) := by
  have h := c1_extract_between_markers ("noise".data) ("\r\nhostname: esp-01\r\n".data)
    ("\r\n".data) (by decide) (by decide) (by decide) (by decide)
  rw [h]
  decide

/-- C2 -- the claim's second equivalence fails: this input contains a
`BEG_RES` marker and no `END_RES` marker at all (hence none after the
`BEG_RES`), yet `extract_results` does not fail with "Result incomplete";
it succeeds with an empty payload, because joining the `BEG_RES`-split
parts deletes the embedded second `BEG_RES` and thereby fabricates an
`END_RES` marker. -/
theorem c2_counterexample :
    hasSub BEG_RES
        (BEG_RES ++ ("##### END RE".data) ++ BEG_RES ++ ("SULTS #####".data)) = true
    ∧ hasSub END_RES
        (BEG_RES ++ ("##### END RE".data) ++ BEG_RES ++ ("SULTS #####".data)) = false
    ∧ extract_results
        (BEG_RES ++ ("##### END RE".data) ++ BEG_RES ++ ("SULTS #####".data)) = .ok [] := by
  refine ⟨by decide, by decide, by decide⟩

/-- C2 (amended) -- `extract_results` fails with "No results found" iff
the input contains no `BEG_RES` marker (and in that case it never
succeeds, in particular not with an empty result); it fails with
"Result incomplete" iff the input contains `BEG_RES` but the
concatenation of the split parts after the first one -- the normalized
text after the first `BEG_RES` with all further embedded `BEG_RES`
occurrences deleted -- contains no `END_RES` marker. -/
theorem c2_extract_error_conditions (s : List Char) :
    (extract_results s = .error ("No results found".data) ↔ hasSub BEG_RES s = false)
    ∧ (extract_results s = .error ("Result incomplete".data) ↔
        (hasSub BEG_RES s = true ∧
          hasSub END_RES (List.flatten ((pysplit BEG_RES (normCRLF s)).drop 1)) = false))
    ∧ (hasSub BEG_RES s = false → ∀ r, extract_results s ≠ .ok r) := by
  have hBne : BEG_RES ≠ [] := by decide
  have hEne : END_RES ≠ [] := by decide
  have hinv : hasSub BEG_RES (normCRLF s) = hasSub BEG_RES s :=
    hasSub_normCRLF s BEG_RES (by decide) (by decide) (by decide)
  simp only [extract_results, pyjoin_pysplit_normCRLF]
  by_cases hb : (pysplit BEG_RES (normCRLF s)).length = 1
  · have hfalse : hasSub BEG_RES s = false := by
      rw [← hinv]
      exact (pysplit_length_eq_one_iff hBne).mp hb
    rw [if_pos hb]
    refine ⟨⟨fun _ => hfalse, fun _ => rfl⟩, ⟨?_, ?_⟩, ?_⟩
    · intro h
      have := Except.error.inj h
      exact absurd this (by decide)
    · rintro ⟨hBs, _⟩
      rw [hBs] at hfalse
      exact absurd hfalse (by simp)
    · intro _ r h
      simp at h
  · rw [if_neg hb]
    have hBtrue : hasSub BEG_RES s = true := by
      rw [← hinv]
      cases hx : hasSub BEG_RES (normCRLF s) with
      | false => exact absurd ((pysplit_length_eq_one_iff hBne).mpr hx) hb
      | true => rfl
    by_cases he :
        (pysplit END_RES (List.flatten ((pysplit BEG_RES (normCRLF s)).drop 1))).length = 1
    · rw [if_pos he]
      have heS : hasSub END_RES (List.flatten ((pysplit BEG_RES (normCRLF s)).drop 1)) = false :=
        (pysplit_length_eq_one_iff hEne).mp he
      refine ⟨⟨?_, ?_⟩, ⟨fun _ => ⟨hBtrue, heS⟩, fun _ => rfl⟩, ?_⟩
      · intro h
        have := Except.error.inj h
        exact absurd this (by decide)
      · intro h
        rw [h] at hBtrue
        exact absurd hBtrue (by simp)
      · intro h
        rw [h] at hBtrue
        exact absurd hBtrue (by simp)
    · rw [if_neg he]
      have heT : hasSub END_RES (List.flatten ((pysplit BEG_RES (normCRLF s)).drop 1)) = true := by
        cases hx : hasSub END_RES (List.flatten ((pysplit BEG_RES (normCRLF s)).drop 1)) with
        | false => exact absurd ((pysplit_length_eq_one_iff hEne).mpr hx) he
        | true => rfl
      refine ⟨⟨?_, ?_⟩, ⟨?_, ?_⟩, ?_⟩
      · intro h
        simp at h
      · intro h
        rw [h] at hBtrue
        exact absurd hBtrue (by simp)
      · intro h
        simp at h
      · rintro ⟨_, hco⟩
        rw [heT] at hco
        exact absurd hco (by simp)
      · intro h
        rw [h] at hBtrue
        exact absurd hBtrue (by simp)

/-- C2 (witness) -- the amended theorem applied to an input without any
`BEG_RES`: extraction fails with "No results found" and in particular is
not an empty-result success. -/
theorem c2_extract_error_conditions_witness :
    extract_results ("prompt> garbage".data) = .error ("No results found".data)
    ∧ extract_results ("prompt> garbage".data) ≠ .ok [] := by
  refine ⟨(c2_extract_error_conditions ("prompt> garbage".data)).1.mpr (by decide), ?_⟩
  exact (c2_extract_error_conditions ("prompt> garbage".data)).2.2 (by decide) []

/-- C7 -- the claim fails as stated: with two `BEG_RES` occurrences the
text after the first occurrence is NOT retained in full; the embedded
second marker is deleted by the `"".join`, so `x` and `y` are glued to
`xy` instead of keeping `x<BEG_RES>y`. -/
theorem c7_counterexample :
    extract_results (BEG_RES ++ ("x".data) ++ BEG_RES ++ ("y".data) ++ END_RES) =
      .ok ("xy".data)
    ∧ ("xy".data ≠ ("x".data) ++ BEG_RES ++ ("y".data)) := by
  refine ⟨by decide, by decide⟩

theorem pysplit_pyjoin_concat {sep : List Char} (hsep : sep ≠ []) :
    ∀ (front : List (List Char)) (last : List Char),
      (∀ q ∈ front, hasSub sep (q ++ sep.dropLast) = false) →
      hasSub sep last = false →
      pysplit sep (pyjoin sep (front ++ [last])) = front ++ [last] := by
  intro front
  induction front with
  | nil =>
    intro last _ hlast
    simp only [List.nil_append]
    rw [show pyjoin sep [last] = last from rfl]
    rw [pysplit_nosub hlast]
  | cons p front' ih =>
    intro last hfront hlast
    obtain ⟨y, t, hyt⟩ : ∃ y t, front' ++ [last] = y :: t := by
      cases front' with
      | nil => exact ⟨last, [], rfl⟩
      | cons r front'' => exact ⟨r, front'' ++ [last], rfl⟩
    rw [List.cons_append, hyt]
    rw [show pyjoin sep (p :: y :: t) = p ++ sep ++ pyjoin sep (y :: t) from rfl]
    rw [pysplit_append_sep hsep (hfront p (by simp))]
    rw [← hyt, ih last (fun q hq => hfront q (List.mem_cons_of_mem p hq)) hlast]

/-- C7 (amended) -- when `BEG_RES` appears more than once, the text
after the first occurrence is kept except that every embedded `BEG_RES`
occurrence is deleted: the split parts `bfront ++ [blast]` lying between
consecutive occurrences are concatenated without the marker.
Symmetrically, everything before the last `END_RES` occurrence is
returned with every embedded `END_RES` occurrence likewise deleted: the
parts `efront` are concatenated without the marker, and `elast`, the
text after the last `END_RES`, is dropped. -/
theorem c7_extract_embedded_markers_deleted
    (pre blast elast : List Char) (bfront efront : List (List Char))
    (hcr : hasSub CRLF (pre ++ BEG_RES ++ pyjoin BEG_RES (bfront ++ [blast])) = false)
    (hb0 : hasSub BEG_RES (pre ++ BEG_RES.dropLast) = false)
    (hbf : ∀ q ∈ bfront, hasSub BEG_RES (q ++ BEG_RES.dropLast) = false)
    (hbl : hasSub BEG_RES blast = false)
    (_hbmore : bfront ≠ [])
    (hjoin : List.flatten (bfront ++ [blast]) = pyjoin END_RES (efront ++ [elast]))
    (hef : ∀ q ∈ efront, hasSub END_RES (q ++ END_RES.dropLast) = false)
    (hel : hasSub END_RES elast = false)
    (hemore : efront ≠ []) :
    extract_results (pre ++ BEG_RES ++ pyjoin BEG_RES (bfront ++ [blast])) =
      .ok (List.flatten efront) := by
  have hBne : BEG_RES ≠ [] := by decide
  have hEne : END_RES ≠ [] := by decide
  simp only [extract_results, pysplit_nosub hcr]
  rw [show pyjoin ['\n'] [pre ++ BEG_RES ++ pyjoin BEG_RES (bfront ++ [blast])] =
      pre ++ BEG_RES ++ pyjoin BEG_RES (bfront ++ [blast]) from rfl]
  rw [pysplit_append_sep hBne hb0]
  rw [pysplit_pyjoin_concat hBne bfront blast hbf hbl]
  rw [if_neg (by
    simp only [List.length_cons, List.length_append, List.length_singleton]
    omega)]
  simp only [List.drop_succ_cons, List.drop_zero]
  rw [hjoin]
  rw [pysplit_pyjoin_concat hEne efront elast hef hel]
  rw [if_neg (by
    have hnz : efront.length ≠ 0 := by simpa [List.length_eq_zero] using hemore
    simp only [List.length_append, List.length_singleton]
    omega)]
  rw [List.dropLast_concat]

/-- C7 (witness) -- two `BEG_RES` and two `END_RES` occurrences: the
embedded second `BEG_RES` and the embedded first `END_RES` are both
deleted, and everything after the last `END_RES` is dropped, leaving
`xyz`. -/
theorem c7_extract_embedded_markers_deleted_witness :
    extract_results (("pre".data) ++ BEG_RES ++ pyjoin BEG_RES
        ([("x".data)] ++
          [("y".data) ++ END_RES ++ ("z".data) ++ END_RES ++ ("post".data)])) =
      .ok ("xyz".data) := by
  have h := c7_extract_embedded_markers_deleted ("pre".data)
    (("y".data) ++ END_RES ++ ("z".data) ++ END_RES ++ ("post".data)) ("post".data)
    [("x".data)] [("xy".data), ("z".data)]
    (by decide) (by decide) (by decide) (by decide) (by decide) (by decide)
    (by decide) (by decide) (by decide)
  rw [h]
  decide

/-- The substitution table `upy_serial_cli.SUBSTITUTES` in the source's
insertion order (Python dicts iterate in insertion order): backslash
first, then newline, carriage return, tab (four spaces) and the single
quote. -/
def SUBSTITUTES : List (List Char × List Char) :=
  [ (['\\'], ['\\', '\\']),
    (['\n'], ['\\', 'n']),
    (['\r'], ['\\', 'r']),
    (['\t'], [' ', ' ', ' ', ' ']),
    (['\''], ['\\', '\'']) ]

/-- The per-line escaping loop of `serial_fwrite`:
`for key in SUBSTITUTES: line = line.replace(key, SUBSTITUTES[key])`. -/
def escapeLine (line : List Char) : List Char :=
  SUBSTITUTES.foldl (fun l kv => pyreplace kv.1 kv.2 l) line

/-- C5 -- a backslash followed by a newline escapes to the escaped
backslash (two literal backslashes) followed by the escaped newline
(backslash `n`), and is not double-escaped: applying the newline
substitution before the backslash substitution would instead mangle the
intermediate backslash into four. -/
theorem c5_escape_backslash_newline :
    escapeLine ['\\', '\n'] = ['\\', '\\'] ++ ['\\', 'n']
    ∧ escapeLine ['\\', '\n'] ≠
        pyreplace ['\\'] ['\\', '\\'] (pyreplace ['\n'] ['\\', 'n'] ['\\', '\n']) := by
  refine ⟨by decide, by decide⟩

theorem mem_replGo {old new : List Char} {c : Char} (hc : c ∉ new) :
    ∀ (f : Nat) (s : List Char), c ∈ replGo old new f s → c ∈ s := by
  intro f
  induction f with
  | zero =>
    intro s h
    cases s with
    | nil => simp [replGo] at h
    | cons d ds => simpa [replGo] using h
  | succ g ih =>
    intro s h
    cases s with
    | nil => simp [replGo] at h
    | cons d ds =>
      simp only [replGo] at h
      split at h
      · rcases List.mem_append.mp h with h | h
        · exact absurd h hc
        · exact List.mem_cons_of_mem d (List.drop_subset _ _ (ih _ h))
      · rcases List.mem_cons.mp h with h | h
        · exact h ▸ List.mem_cons_self d ds
        · exact List.mem_cons_of_mem d (ih _ h)

theorem not_mem_replGo_single {d : Char} {new : List Char} (hd : d ∉ new) :
    ∀ (f : Nat) (s : List Char), s.length ≤ f → d ∉ replGo [d] new f s := by
  intro f
  induction f with
  | zero =>
    intro s hf
    cases s with
    | nil => simp [replGo]
    | cons c cs => simp at hf
  | succ g ih =>
    intro s hf
    cases s with
    | nil => simp [replGo]
    | cons c cs =>
      by_cases hdc : d = c
      · subst hdc
        have hsw : startsWith [d] (d :: cs) = true := by simp [startsWith]
        simp only [replGo, hsw, if_true]
        intro hmem
        rcases List.mem_append.mp hmem with h | h
        · exact hd h
        · exact ih (List.drop ([d].length - 1) cs)
            (by simp only [List.length_drop]; simp at hf; omega) h
      · have hsw : startsWith [d] (c :: cs) = false := by simp [startsWith, hdc]
        simp only [replGo, hsw]
        rw [if_neg (by simp)]
        intro hmem
        rcases List.mem_cons.mp hmem with h | h
        · exact hdc h
        · exact ih cs (by simpa using hf) h

theorem not_mem_pyreplace_single {d : Char} {new : List Char} (hd : d ∉ new)
    (s : List Char) : d ∉ pyreplace [d] new s :=
  not_mem_replGo_single hd s.length s (Nat.le_refl _)

theorem mem_pyreplace {old new : List Char} {c : Char} (hc : c ∉ new) {s : List Char}
    (h : c ∈ pyreplace old new s) : c ∈ s :=
  mem_replGo hc s.length s h

theorem escapeLine_no_lf (line : List Char) : '\n' ∉ escapeLine line := by
  simp only [escapeLine, SUBSTITUTES, List.foldl_cons, List.foldl_nil]
  intro h
  have h1 := mem_pyreplace (by decide) h
  have h2 := mem_pyreplace (by decide) h1
  have h3 := mem_pyreplace (by decide) h2
  exact not_mem_pyreplace_single (by decide) _ h3

theorem escapeLine_no_cr (line : List Char) : '\r' ∉ escapeLine line := by
  simp only [escapeLine, SUBSTITUTES, List.foldl_cons, List.foldl_nil]
  intro h
  have h1 := mem_pyreplace (by decide) h
  have h2 := mem_pyreplace (by decide) h1
  exact not_mem_pyreplace_single (by decide) _ h2

/-- `upy_serial_cli.argv_to_str`: renders an argument list in the format
`"arg_1", "arg_2", ... , "arg_n"` (comma-space after every argument but
the last). -/
def argv_to_str : List (List Char) → List Char
  | [] => []
  | [a] => '"' :: (a ++ ['"'])
  | a :: b :: rest => ('"' :: (a ++ ['"'])) ++ (", ".data) ++ argv_to_str (b :: rest)

/-- Rendering of a Python `bool` by string formatting (`True` / `False`). -/
def pyBool : Bool → List Char
  | true => "True".data
  | false => "False".data

/-- Rendering of a Python `int` by string formatting: decimal digits with
a leading `-` for negative values, as produced by `Int.repr`. -/
def intRepr (i : Int) : List Char := (Int.repr i).data

/-- Statement sent by `upy_serial_cli.cat`. -/
def cat_stmt (argv : List (List Char)) : List Char :=
  ("cat(".data) ++ argv_to_str argv ++ (")\r\n".data)

/-- Statement sent by `upy_serial_cli.du`. -/
def du_stmt (args : List (List Char)) (max_depth : Int) (human_readable : Bool) : List Char :=
  ("du(".data) ++ argv_to_str args ++ (", max_depth=".data) ++ intRepr max_depth ++
    (", human_readable=".data) ++ pyBool human_readable ++ (")\r\n".data)

/-- Statement sent by `upy_serial_cli.ls`. -/
def ls_stmt (args : List (List Char)) (human_readable list_format rec_opt : Bool) : List Char :=
  ("ls(".data) ++ argv_to_str args ++ (", human_readable=".data) ++ pyBool human_readable ++
    (", list_format=".data) ++ pyBool list_format ++ (", rec=".data) ++ pyBool rec_opt ++
    (")\r\n".data)

/-- Statement sent by `upy_serial_cli.sysinfo`. -/
def sysinfo_stmt (query : List Char) : List Char :=
  ("sysinfo(query=\"".data) ++ query ++ ("\")\r\n".data)

/-- Statement sent by `upy_serial_cli.restore`. -/
def restore_stmt : List Char := "restore()\r\n".data

/-- Directory-probe statement sent by `upy_serial_cli.cp`. -/
def is_dir_stmt (dest : List Char) : List Char :=
  ("is_dir(\"".data) ++ dest ++ ("\")\r\n".data)

/-- Handle-opening statement sent by `upy_serial_cli.serial_fwrite`. -/
def fopen_stmt (dest : List Char) : List Char :=
  ("fd = open(\"".data) ++ dest ++ ("\", \"w\")\r\n".data)

/-- Per-line write statement sent by `upy_serial_cli.serial_fwrite`: the
line is escaped through `SUBSTITUTES` and wrapped in
`fd.write(<quote>...<quote>.encode("utf-8"))`. -/
def fwriteLine_stmt (line : List Char) : List Char :=
  ("fd.write(".data) ++ ['\''] ++ escapeLine line ++ ['\''] ++
    (".encode(\"utf-8\"))\r\n".data)

/-- Handle-closing statement sent by `upy_serial_cli.serial_fwrite`. -/
def fclose_stmt : List Char := "fd.close()\r\n".data

/-- A statement is well-framed when it is some body followed by exactly
one terminating CRLF, with no CRLF occurrence inside the body. -/
def wellFramed (stmt : List Char) : Prop :=
  ∃ body, stmt = body ++ CRLF ∧ hasSub CRLF body = false

theorem hasSub_crlf_of_no_lf : ∀ {l : List Char}, '\n' ∉ l → hasSub CRLF l = false := by
  intro l
  induction l with
  | nil => intro _; rfl
  | cons c cs ih =>
    intro h
    have hcs : '\n' ∉ cs := fun hm => h (List.mem_cons_of_mem c hm)
    have hsw : startsWith CRLF (c :: cs) = false := by
      cases cs with
      | nil => simp [CRLF, startsWith]
      | cons d ds =>
        have hd : d ≠ '\n' := fun hh => hcs (by simp [hh])
        simp [CRLF, startsWith, Ne.symm hd]
    simp [hasSub, hsw, ih hcs]

theorem wellFramed_of_no_lf (body : List Char) {stmt : List Char} (hb : '\n' ∉ body)
    (ht : stmt = body ++ CRLF) : wellFramed stmt :=
  ⟨body, ht, hasSub_crlf_of_no_lf hb⟩

theorem digitChar_ne_lf (n : Nat) : Nat.digitChar n ≠ '\n' := by
  rcases le_or_lt n 16 with h | h
  · revert h
    revert n
    decide
  · have : Nat.digitChar n = '*' := by
      unfold Nat.digitChar
      repeat rw [if_neg (by omega)]
    rw [this]
    decide

theorem toDigitsCore_no_lf :
    ∀ (f n : Nat) (ds : List Char), '\n' ∉ ds → '\n' ∉ Nat.toDigitsCore 10 f n ds := by
  intro f
  induction f with
  | zero =>
    intro n ds h
    simpa [Nat.toDigitsCore] using h
  | succ g ih =>
    intro n ds h
    simp only [Nat.toDigitsCore]
    split
    · intro hm
      rcases List.mem_cons.mp hm with hm | hm
      · exact digitChar_ne_lf (n % 10) hm.symm
      · exact h hm
    · refine ih _ _ ?_
      intro hm
      rcases List.mem_cons.mp hm with hm | hm
      · exact digitChar_ne_lf (n % 10) hm.symm
      · exact h hm

theorem intRepr_no_lf (i : Int) : '\n' ∉ intRepr i := by
  cases i with
  | ofNat m =>
    show '\n' ∉ (Int.repr (Int.ofNat m)).data
    simp only [Int.repr, Nat.repr, Nat.toDigits, List.asString]
    exact toDigitsCore_no_lf _ _ _ (by simp)
  | negSucc m =>
    show '\n' ∉ (Int.repr (Int.negSucc m)).data
    simp only [Int.repr, Nat.repr, Nat.toDigits, List.asString]
    intro hm
    rcases List.mem_cons.mp hm with hm | hm
    · exact absurd hm.symm (by decide)
    · exact toDigitsCore_no_lf _ _ _ (by simp) hm

theorem pyBool_no_lf (b : Bool) : '\n' ∉ pyBool b := by
  cases b <;> decide

theorem argv_to_str_no_lf :
    ∀ {args : List (List Char)}, (∀ a ∈ args, '\n' ∉ a) → '\n' ∉ argv_to_str args := by
  intro args
  induction args using argv_to_str.induct with
  | case1 => intro _; simp [argv_to_str]
  | case2 a =>
    intro h
    simp only [argv_to_str]
    intro hm
    rcases List.mem_cons.mp hm with hm | hm
    · exact absurd hm.symm (by decide)
    · rcases List.mem_append.mp hm with hm | hm
      · exact h a (by simp) hm
      · simp at hm
  | case3 a b rest ih =>
    intro h
    simp only [argv_to_str]
    intro hm
    rcases List.mem_append.mp hm with hm | hm
    · rcases List.mem_append.mp hm with hm | hm
      · rcases List.mem_cons.mp hm with hm | hm
        · exact absurd hm.symm (by decide)
        · rcases List.mem_append.mp hm with hm | hm
          · exact h a (by simp) hm
          · simp at hm
      · simp at hm
    · exact ih (fun x hx => h x (List.mem_cons_of_mem a hx)) hm

/-- C4 -- the claim fails as stated: the statement produced by the `cat`
encoder ends with a single CRLF, not with CRLF followed by a blank line
(`"\r\n\r\n"`). -/
theorem c4_counterexample :
    cat_stmt [("f".data)] = ("cat(\"f\")\r\n".data)
    ∧ startsWith ("\r\n\r\n".data)
        ((cat_stmt [("f".data)]).reverse.take 4).reverse = false := by
  refine ⟨by decide, by decide⟩

/-- C4 (amended) -- every remote statement produced for transmission by
the command encoders (`cat`, `du`, `ls`, `sysinfo`, `restore`, the
`is_dir` probe, and the open/write/close statements of the file-transfer
encoder) ends with exactly one transport line terminator CRLF and
contains no unescaped terminator embedded elsewhere -- in particular it
does NOT end with a CRLF followed by a blank line; the hypotheses say
that the caller-supplied arguments carry no LF themselves (argument
values are not escaped -- the spec's documented gap), while the
file-transfer write statement needs no such hypothesis because
`SUBSTITUTES` escapes every LF and CR of the line. -/
theorem c4_statements_single_crlf_terminated :
    (∀ args : List (List Char), (∀ a ∈ args, '\n' ∉ a) → wellFramed (cat_stmt args))
    ∧ (∀ (args : List (List Char)) (md : Int) (hr : Bool),
        (∀ a ∈ args, '\n' ∉ a) → wellFramed (du_stmt args md hr))
    ∧ (∀ (args : List (List Char)) (hr lf rc : Bool),
        (∀ a ∈ args, '\n' ∉ a) → wellFramed (ls_stmt args hr lf rc))
    ∧ (∀ q : List Char, '\n' ∉ q → wellFramed (sysinfo_stmt q))
    ∧ wellFramed restore_stmt
    ∧ (∀ d : List Char, '\n' ∉ d → wellFramed (is_dir_stmt d) ∧ wellFramed (fopen_stmt d))
    ∧ (∀ line : List Char, wellFramed (fwriteLine_stmt line))
    ∧ wellFramed fclose_stmt := by
  refine ⟨?_, ?_, ?_, ?_, ?_, ?_, ?_, ?_⟩
  · intro args h
    refine wellFramed_of_no_lf (("cat(".data) ++ argv_to_str args ++ (")".data)) ?_ ?_
    · intro hm
      rcases List.mem_append.mp hm with hm | hm
      · rcases List.mem_append.mp hm with hm | hm
        · exact absurd hm (by decide)
        · exact argv_to_str_no_lf h hm
      · exact absurd hm (by decide)
    · simp only [cat_stmt, List.append_assoc]
      simp [CRLF]
  · intro args md hr h
    refine wellFramed_of_no_lf
      (("du(".data) ++ argv_to_str args ++ (", max_depth=".data) ++ intRepr md ++
        (", human_readable=".data) ++ pyBool hr ++ (")".data)) ?_ ?_
    · intro hm
      simp only [List.append_assoc, List.mem_append] at hm
      rcases hm with hm | hm | hm | hm | hm | hm
      · exact absurd hm (by decide)
      · exact argv_to_str_no_lf h hm
      · exact absurd hm (by decide)
      · exact intRepr_no_lf md hm
      · exact absurd hm (by decide)
      · rcases hm with hm | hm
        · exact pyBool_no_lf hr hm
        · exact absurd hm (by decide)
    · simp only [du_stmt, List.append_assoc]
      simp [CRLF]
  · intro args hr lf rc h
    refine wellFramed_of_no_lf
      (("ls(".data) ++ argv_to_str args ++ (", human_readable=".data) ++ pyBool hr ++
        (", list_format=".data) ++ pyBool lf ++ (", rec=".data) ++ pyBool rc ++ (")".data)) ?_ ?_
    · intro hm
      simp only [List.append_assoc, List.mem_append] at hm
      rcases hm with hm | hm | hm | hm | hm | hm | hm | hm
      · exact absurd hm (by decide)
      · exact argv_to_str_no_lf h hm
      · exact absurd hm (by decide)
      · exact pyBool_no_lf hr hm
      · exact absurd hm (by decide)
      · exact pyBool_no_lf lf hm
      · exact absurd hm (by decide)
      · rcases hm with hm | hm
        · exact pyBool_no_lf rc hm
        · exact absurd hm (by decide)
    · simp only [ls_stmt, List.append_assoc]
      simp [CRLF]
  · intro q h
    refine wellFramed_of_no_lf
      (("sysinfo(query=\"".data) ++ q ++ ("\")".data)) ?_ ?_
    · intro hm
      simp only [List.append_assoc, List.mem_append] at hm
      rcases hm with hm | hm | hm
      · exact absurd hm (by decide)
      · exact h hm
      · exact absurd hm (by decide)
    · simp only [sysinfo_stmt, List.append_assoc]
      simp [CRLF]
  · exact wellFramed_of_no_lf ("restore()".data) (by decide) (by decide)
  · intro d h
    constructor
    · refine wellFramed_of_no_lf (("is_dir(\"".data) ++ d ++ ("\")".data)) ?_ ?_
      · intro hm
        simp only [List.append_assoc, List.mem_append] at hm
        rcases hm with hm | hm | hm
        · exact absurd hm (by decide)
        · exact h hm
        · exact absurd hm (by decide)
      · simp only [is_dir_stmt, List.append_assoc]
        simp [CRLF]
    · refine wellFramed_of_no_lf (("fd = open(\"".data) ++ d ++ ("\", \"w\")".data)) ?_ ?_
      · intro hm
        simp only [List.append_assoc, List.mem_append] at hm
        rcases hm with hm | hm | hm
        · exact absurd hm (by decide)
        · exact h hm
        · exact absurd hm (by decide)
      · simp only [fopen_stmt, List.append_assoc]
        simp [CRLF]
  · intro line
    refine wellFramed_of_no_lf
      (("fd.write(".data) ++ ['\''] ++ escapeLine line ++ ['\''] ++
        (".encode(\"utf-8\"))".data)) ?_ ?_
    · intro hm
      simp only [List.append_assoc, List.mem_append] at hm
      rcases hm with hm | hm | hm | hm | hm
      · exact absurd hm (by decide)
      · exact absurd hm (by decide)
      · exact escapeLine_no_lf line hm
      · exact absurd hm (by decide)
      · exact absurd hm (by decide)
    · simp only [fwriteLine_stmt, List.append_assoc]
      simp [CRLF]
  · exact wellFramed_of_no_lf ("fd.close()".data) (by decide) (by decide)

/-- C4 (witness) -- the amended theorem instantiated at concrete
arguments for each encoder. -/
theorem c4_statements_single_crlf_terminated_witness :
    wellFramed (cat_stmt [("f".data)])
    ∧ wellFramed (du_stmt [(".".data)] (-1) false)
    ∧ wellFramed (ls_stmt [(".".data)] false false false)
    ∧ wellFramed (sysinfo_stmt ("hostname".data))
    ∧ wellFramed restore_stmt
    ∧ wellFramed (is_dir_stmt ("d".data))
    ∧ wellFramed (fopen_stmt ("d".data))
    ∧ wellFramed (fwriteLine_stmt ("a\\b\n".data))
    ∧ wellFramed fclose_stmt := by
  obtain ⟨hcat, hdu, hls, hsys, hres, hdir, hfw, hfc⟩ := c4_statements_single_crlf_terminated
  exact ⟨hcat _ (by decide), hdu _ _ _ (by decide), hls _ _ _ _ (by decide),
    hsys _ (by decide), hres, (hdir _ (by decide)).1, (hdir _ (by decide)).2,
    hfw _, hfc⟩

/-- Size in bytes of the UTF-8 encoding of one character, as produced by
Python's `str.encode("utf-8")`: 1 byte up to U+007F, 2 up to U+07FF,
3 up to U+FFFF, 4 beyond. -/
def charBytes (c : Char) : Nat :=
  if c.val ≤ 0x7F then 1 else if c.val ≤ 0x7FF then 2 else if c.val ≤ 0xFFFF then 3 else 4

/-- Byte length of the UTF-8 encoding of a string,
`len(s.encode("utf-8"))`. -/
def utf8Len (l : List Char) : Nat := (l.map charBytes).sum

/-- Write-chunk size `upy_serial_cli.DEFAULT_SER_WRBUF_SIZE`. -/
def DEFAULT_SER_WRBUF_SIZE : Nat := 256

/-- The chunking loop of `upy_serial_cli.serial_write`, collecting every
chunk handed to the transport write, in order.  Each iteration slices
256 *characters* (`buf[offset:offset + 256]`), encodes them, and treats
the transport's return value as the number of *bytes* written; the
blocking pyserial write reports the full byte length of its argument,
so `written_bytes = utf8Len chunk`.  The loop repeats exactly while
`written_bytes == DEFAULT_SER_WRBUF_SIZE`, advancing the character
offset by the byte count written (256 in every repeating iteration).
The fuel `buf.length + 1` dominates the iteration count, since every
repeated iteration consumes a non-empty 256-character slice. -/
def swGo (buf : List Char) : Nat → Nat → List (List Char)
  | 0, _ => []
  | fuel + 1, offset =>
    let chunk := (buf.drop offset).take DEFAULT_SER_WRBUF_SIZE
    if utf8Len chunk = DEFAULT_SER_WRBUF_SIZE then
      chunk :: swGo buf fuel (offset + DEFAULT_SER_WRBUF_SIZE)
    else [chunk]

/-- The chunks `serial_write` passes to the transport for `buf`. -/
def serial_write_chunks (buf : List Char) : List (List Char) :=
  swGo buf (buf.length + 1) 0

theorem utf8Len_ascii : ∀ {l : List Char}, (∀ c ∈ l, charBytes c = 1) → utf8Len l = l.length := by
  intro l
  induction l with
  | nil => intro _; rfl
  | cons c cs ih =>
    intro h
    simp only [utf8Len, List.map_cons, List.sum_cons, h c (by simp)]
    have := ih (fun x hx => h x (List.mem_cons_of_mem c hx))
    simp only [utf8Len] at this
    simp only [List.length_cons, this]
    omega

theorem swGo_ascii (buf : List Char) (hA : ∀ c ∈ buf, charBytes c = 1) :
    ∀ (f offset : Nat), buf.length - offset < f →
      (buf.length - offset) % 256 = 0 →
      (List.flatten (swGo buf f offset) = buf.drop offset)
      ∧ (∀ l ∈ (swGo buf f offset).dropLast, utf8Len l = 256)
      ∧ (∃ last, (swGo buf f offset).getLast? = some last ∧ utf8Len last < 256) := by
  intro f
  induction f with
  | zero =>
    intro offset hf _
    omega
  | succ g ih =>
    intro offset hf hmod
    have hchunkA : ∀ c ∈ (buf.drop offset).take 256, charBytes c = 1 :=
      fun c hc => hA c (List.drop_subset _ _ (List.take_subset _ _ hc))
    have hulen : utf8Len ((buf.drop offset).take 256) =
        ((buf.drop offset).take 256).length := utf8Len_ascii hchunkA
    have hclen : ((buf.drop offset).take 256).length = min 256 (buf.length - offset) := by
      simp [List.length_take, List.length_drop]
    rcases Nat.eq_zero_or_pos (buf.length - offset) with hrem | hrem
    · have hempty : (buf.drop offset).take 256 = [] := by
        apply List.eq_nil_of_length_eq_zero
        omega
      have hnot : ¬ utf8Len ((buf.drop offset).take 256) = 256 := by
        rw [hempty]
        decide
      simp only [swGo, DEFAULT_SER_WRBUF_SIZE, if_neg hnot]
      refine ⟨?_, by simp, ⟨[], by simp [hempty], by decide⟩⟩
      rw [hempty, List.drop_eq_nil_of_le (by omega)]
      simp
    · have hfull : utf8Len ((buf.drop offset).take 256) = 256 := by omega
      simp only [swGo, DEFAULT_SER_WRBUF_SIZE, if_pos hfull]
      have hf' : buf.length - (offset + 256) < g := by omega
      have hmod' : (buf.length - (offset + 256)) % 256 = 0 := by omega
      obtain ⟨ihf, ihd, last, ihl, ihlt⟩ := ih (offset + 256) hf' hmod'
      obtain ⟨y, l, hyl⟩ : ∃ y l, swGo buf g (offset + 256) = y :: l := by
        cases hx : swGo buf g (offset + 256) with
        | nil => rw [hx] at ihl; simp at ihl
        | cons y l => exact ⟨y, l, rfl⟩
      refine ⟨?_, ?_, ?_⟩
      · simp only [List.flatten_cons, ihf]
        rw [show buf.drop (offset + 256) = (buf.drop offset).drop 256 from by
          rw [List.drop_drop]]
        exact List.take_append_drop _ _
      · intro x hx
        rw [hyl] at hx
        rw [show ((buf.drop offset).take 256 :: y :: l).dropLast =
            (buf.drop offset).take 256 :: (y :: l).dropLast from rfl] at hx
        rcases List.mem_cons.mp hx with hx | hx
        · rw [hx]
          exact hfull
        · rw [hyl] at ihd
          exact ihd x hx
      · refine ⟨last, ?_, ihlt⟩
        rw [hyl] at ihl ⊢
        rw [List.getLast?_cons_cons]
        exact ihl

set_option maxRecDepth 8192 in
/-- C3 -- the claim fails as stated: this buffer of 384 two-byte
characters has encoded byte length 768, an exact positive multiple of
the 256-byte chunk size, yet `serial_write` passes a single chunk of 256
characters (512 bytes) to the transport and stops -- because the chunk
transmits MORE than 256 bytes, not fewer -- so the concatenation of the
transmitted chunks is not the whole buffer: the loop mixes character
offsets with byte counts. -/
theorem c3_counterexample :
    utf8Len (List.replicate 384 'ü') = 768
    ∧ 768 % DEFAULT_SER_WRBUF_SIZE = 0
    ∧ serial_write_chunks (List.replicate 384 'ü') = [List.replicate 256 'ü']
    ∧ utf8Len (List.replicate 256 'ü') = 512
    ∧ List.flatten (serial_write_chunks (List.replicate 384 'ü')) ≠ List.replicate 384 'ü' := by
  refine ⟨by decide, by decide, by decide, by decide, by decide⟩

/-- C3 (amended) -- for every buffer of single-byte (ASCII-range)
characters whose encoded byte length is an exact positive multiple of
the chunk size `DEFAULT_SER_WRBUF_SIZE = 256`, `serial_write` terminates
and the concatenation of all chunks passed to the transport write equals
the entire buffer; every chunk except the final one carries exactly 256
bytes, and the loop stops exactly at the final chunk, which transmits
fewer than 256 bytes (the empty trailing slice).  For multi-byte content
the loop can instead stop on a chunk that transmits more than the chunk
size, truncating the transfer (counterexample). -/
theorem c3_serial_write_exact_multiple (buf : List Char)
    (hA : ∀ c ∈ buf, charBytes c = 1)
    (hmul : utf8Len buf % 256 = 0)
    (hpos : 0 < utf8Len buf) :
    List.flatten (serial_write_chunks buf) = buf
    ∧ (∀ l ∈ (serial_write_chunks buf).dropLast, utf8Len l = 256)
    ∧ (∃ last, (serial_write_chunks buf).getLast? = some last ∧ utf8Len last < 256) := by
  have hlen : utf8Len buf = buf.length := utf8Len_ascii hA
  rw [hlen] at hmul hpos
  have h := swGo_ascii buf hA (buf.length + 1) 0 (by omega) (by omega)
  simpa [serial_write_chunks] using h

set_option maxRecDepth 8192 in
/-- C3 (witness) -- the amended theorem on 256 ASCII characters: both
chunks (the full one and the final empty one) concatenate back to the
buffer. -/
theorem c3_serial_write_exact_multiple_witness :
    List.flatten (serial_write_chunks (List.replicate 256 'a')) = List.replicate 256 'a'
    ∧ (∀ l ∈ (serial_write_chunks (List.replicate 256 'a')).dropLast, utf8Len l = 256)
    ∧ (∃ last, (serial_write_chunks (List.replicate 256 'a')).getLast? = some last
        ∧ utf8Len last < 256) :=
  c3_serial_write_exact_multiple (List.replicate 256 'a') (by decide) (by decide) (by decide)

/-- Events of one `cp` exchange over the transport session: opening the
serial connection, writing one remote statement, reading the device
reply, and closing the connection. -/
inductive Ev : Type
  | op : Ev
  | write : List Char → Ev
  | rd : Ev
  | cl : Ev
deriving DecidableEq

/-- The remote statements emitted by `upy_serial_cli.serial_fwrite` for
a source stream with the given lines and a destination path: one
open-statement, then one write-statement per source line (the line
escaped through `SUBSTITUTES` and encoded as bytes), then one
close-statement. -/
def serial_fwrite_stmts (lines : List (List Char)) (dest : List Char) : List (List Char) :=
  fopen_stmt dest :: lines.map fwriteLine_stmt ++ [fclose_stmt]

/-- Python `os.path.basename`: everything after the last `/`. -/
def basename (p : List Char) : List Char :=
  (pysplit ['/'] p).getLastD []

/-- Transport-event trace of `upy_serial_cli.cp` copying one local
source to a serial destination (the generic `-s local -d serial` branch
with a single source; `lines` are the lines read from the local file and
`reply` is the device's raw answer to the `is_dir` probe).  A raised
exception (empty destination path, or a protocol error from
`extract_results`) reaches `error` and terminates the process, modelled
as `Except.error` with the message.  A `TRUE` probe answer copies into
`dest/basename(src)`; `FALSE` (existing non-directory) and any other
answer (destination missing) both copy into `dest` itself when there is
a single source, so they render identically. -/
def cp_local_serial_single (reply src : List Char) (lines : List (List Char))
    (dest : List Char) : Except (List Char) (List Ev) :=
  if pystrip dest = [] then .error ("Destination path cannot be empty".data)
  else
    match extract_results reply with
    | .error e => .error e
    | .ok res =>
      if pystrip res = ("TRUE".data) then
        .ok ([Ev.op, Ev.write (is_dir_stmt dest), Ev.rd] ++
          (serial_fwrite_stmts lines (dest ++ ['/'] ++ basename src)).map Ev.write ++ [Ev.cl])
      else
        .ok ([Ev.op, Ev.write (is_dir_stmt dest), Ev.rd] ++
          (serial_fwrite_stmts lines dest).map Ev.write ++ [Ev.cl])

/-- C6 -- copying a local stream of `n` lines to a destination whose
directory probe answers `FALSE` emits exactly `n + 2` remote statements
in order -- one handle-opening statement, one write-statement per line
(with that line's escaped text), one handle-closing statement -- and the
whole transfer sits inside a single session open/close bracket. -/
theorem c6_fwrite_statement_trace (reply src dest res : List Char)
    (lines : List (List Char))
    (hd : ¬ pystrip dest = [])
    (hres : extract_results reply = .ok res)
    (hF : pystrip res = ("FALSE".data)) :
    cp_local_serial_single reply src lines dest =
      .ok ([Ev.op, Ev.write (is_dir_stmt dest), Ev.rd] ++
        (serial_fwrite_stmts lines dest).map Ev.write ++ [Ev.cl])
    ∧ (serial_fwrite_stmts lines dest).length = lines.length + 2
    ∧ (serial_fwrite_stmts lines dest).head? = some (fopen_stmt dest)
    ∧ (∀ i, i < lines.length →
        (serial_fwrite_stmts lines dest)[i + 1]? = (lines[i]?).map fwriteLine_stmt)
    ∧ (serial_fwrite_stmts lines dest).getLast? = some fclose_stmt
    ∧ (∀ tr, cp_local_serial_single reply src lines dest = .ok tr →
        ∃ mids, tr = Ev.op :: mids ++ [Ev.cl] ∧ ∀ e ∈ mids, e ≠ Ev.op ∧ e ≠ Ev.cl) := by
  have htrace : cp_local_serial_single reply src lines dest =
      .ok ([Ev.op, Ev.write (is_dir_stmt dest), Ev.rd] ++
        (serial_fwrite_stmts lines dest).map Ev.write ++ [Ev.cl]) := by
    simp only [cp_local_serial_single, hres]
    rw [if_neg hd, if_neg (by rw [hF]; decide)]
  refine ⟨htrace, ?_, ?_, ?_, ?_, ?_⟩
  · simp [serial_fwrite_stmts]
  · rfl
  · intro i hi
    simp only [serial_fwrite_stmts]
    rw [List.getElem?_append, if_pos (by simp; omega), List.getElem?_cons_succ,
      List.getElem?_map]
  · simp only [serial_fwrite_stmts]
    exact List.getLast?_concat _
  · intro tr htr
    rw [htrace] at htr
    have htr' := Except.ok.inj htr
    refine ⟨Ev.write (is_dir_stmt dest) :: Ev.rd :: (serial_fwrite_stmts lines dest).map Ev.write,
      ?_, ?_⟩
    · rw [← htr']
      simp
    · intro e he
      rcases List.mem_cons.mp he with rfl | he
      · exact ⟨by simp, by simp⟩
      rcases List.mem_cons.mp he with rfl | he
      · exact ⟨by simp, by simp⟩
      obtain ⟨s, _, rfl⟩ := List.mem_map.mp he
      exact ⟨by simp, by simp⟩

/-- C6 (witness) -- the theorem on a concrete three-line source, a
mock `FALSE` probe reply and destination `f`: one open, three writes,
one close. -/
theorem c6_fwrite_statement_trace_witness :
    cp_local_serial_single (BEG_RES ++ ("\nFALSE\n".data) ++ END_RES) ("a.txt".data)
        [("l1".data), ("l2".data), ("l3".data)] ("f".data) =
      .ok ([Ev.op, Ev.write (is_dir_stmt ("f".data)), Ev.rd] ++
        (serial_fwrite_stmts [("l1".data), ("l2".data), ("l3".data)] ("f".data)).map Ev.write ++
        [Ev.cl])
    ∧ (serial_fwrite_stmts [("l1".data), ("l2".data), ("l3".data)] ("f".data)).length = 3 + 2 := by
  have h := c6_fwrite_statement_trace (BEG_RES ++ ("\nFALSE\n".data) ++ END_RES) ("a.txt".data)
    ("f".data) ("\nFALSE\n".data) [("l1".data), ("l2".data), ("l3".data)]
    (by decide) (by decide) (by decide)
  exact ⟨h.1, h.2.1⟩

/-- A raised Python exception as seen by the `error` handler.  The
`errno` field models the exception's `errno` attribute three-valued,
as in Python: `none` -- the attribute does not exist (`hasattr` is
false, as on `ValueError`); `some none` -- the attribute exists but
holds `None` (as on every OSError-family exception constructed with
just a message, e.g. pyserial's `SerialException`); `some (some n)` --
the attribute holds the integer `n`. -/
structure PyErr where
  msg : List Char
  errno : Option (Option Int)

/-- `upy_serial_cli.EXIT_SUCCESS`. -/
def EXIT_SUCCESS : Int := 0

/-- `upy_serial_cli.EXIT_FAILURE` (generic failure). -/
def EXIT_FAILURE : Int := 255

/-- Exit status produced by `upy_serial_cli.error`: when an `errno`
attribute exists the handler runs `sys.exit(err.errno)`, which exits
with that integer when the attribute holds one and with status 0 when
the attribute holds `None` (`sys.exit(None)` is a success exit in
Python); without the attribute it exits `EXIT_FAILURE`. -/
def error_exit_code (err : PyErr) : Int :=
  match err.errno with
  | some (some n) => n
  | some none => 0
  | none => EXIT_FAILURE

/-- C8 -- the claim fails on the code: an OSError-family exception
raised with only a message (such as pyserial's `SerialException`,
reachable through `cp`'s generic exception handler) carries an `errno`
attribute whose value is `None`; `error` then runs `sys.exit(None)` and
the process exits with status 0 on an error path -- neither the
underlying OS error number nor 255. -/
theorem c8_counterexample :
    error_exit_code
        ⟨("device reports readiness to read but returned no data".data), some none⟩ = 0
    ∧ (⟨("device reports readiness to read but returned no data".data),
        some none⟩ : PyErr).errno ≠ none
    ∧ (0 : Int) ≠ EXIT_FAILURE := by
  refine ⟨rfl, Option.some_ne_none _, by decide⟩

/-- C8 (amended) -- the exit code is 0 on success; on the error path it
is the exception's `errno` when the attribute exists and holds an
integer, 255 (generic failure) when the attribute does not exist, and
0 -- indistinguishable from success -- when the attribute exists but
holds `None` (`sys.exit(None)`); the error path produces no other exit
codes. -/
theorem c8_exit_codes :
    EXIT_SUCCESS = 0 ∧ EXIT_FAILURE = 255
    ∧ ∀ err : PyErr,
        (∃ n, err.errno = some (some n) ∧ error_exit_code err = n)
        ∨ (err.errno = some none ∧ error_exit_code err = 0)
        ∨ (err.errno = none ∧ error_exit_code err = EXIT_FAILURE) := by
  refine ⟨rfl, rfl, ?_⟩
  intro err
  cases h : err.errno with
  | none => exact Or.inr (Or.inr ⟨rfl, by simp [error_exit_code, h]⟩)
  | some v =>
    cases v with
    | none => exact Or.inr (Or.inl ⟨rfl, by simp [error_exit_code, h]⟩)
    | some n => exact Or.inl ⟨n, rfl, by simp [error_exit_code, h]⟩

/-- A host-language class as consumed by the `functor` decorator: a
constructor that may raise `TypeError` (modelled as `Except.error ()`)
and a `__call__` method. -/
structure PyCallable (A I R : Type) where
  init : A → Except Unit I
  call : I → A → R

/-- One invocation of a `functor`-wrapped class (`boot.functor`): while
no instance exists the call's arguments go to the class constructor and
the freshly constructed instance itself is returned (`Sum.inl`), without
touching `__call__`; once an instance is stored, an invocation runs its
`__call__` on the arguments (`Sum.inr`).  The pair carries the stored
instance after the invocation (a constructor exception leaves it
unassigned). -/
def functor_invoke {A I R : Type} (cls : PyCallable A I R) :
    Option I → A → Option I × Except Unit (I ⊕ R)
  | none, a =>
    match cls.init a with
    | .error e => (none, .error e)
    | .ok inst => (some inst, .ok (Sum.inl inst))
  | some inst, a => (some inst, .ok (Sum.inr (cls.call inst a)))

/-- Memory queries of the device-side `sysinfo` (`QUERIES_MEM`). -/
def QUERIES_MEM : List (List Char) :=
  [("avail".data), ("bsize".data), ("free".data), ("frsize".data), ("size".data)]

/-- System queries of the device-side `sysinfo` (`QUERIES_SYS`). -/
def QUERIES_SYS : List (List Char) :=
  [("fwver".data), ("hostname".data), ("hwrelease".data), ("machine".data), ("sysname".data)]

/-- The state built by `sysinfo.__init__`: the accepted query names. -/
structure SysinfoInst where
  queries : List (List Char)

/-- `cli_module.sysinfo` as a `PyCallable`: `__init__(self)` accepts no
parameters, so a call argument (such as the keyword `query=`) raises
`TypeError`; only an argumentless first call constructs the instance
with its `queries` list.  `__call__(query=...)` queries live device
state (`uos.statvfs`, `uos.uname`), outside this embedding; the claim
concerns the first call only, which never reaches `__call__`, so its
result type is `Unit` here. -/
def sysinfoPy : PyCallable (Option (List Char)) SysinfoInst Unit where
  init := fun a =>
    match a with
    | none =>
      .ok ⟨[("all".data), ("all_mem".data), ("all_sys".data)] ++ QUERIES_MEM ++ QUERIES_SYS⟩
    | some _ => .error ()
  call := fun _ _ => ()

/-- C9 -- the first invocation of a `functor`-wrapped class hands the
arguments to the constructor and returns the constructed instance (or
its exception) without consulting `__call__` -- the result is the same
for any two `__call__` implementations -- and only invocations finding a
stored instance dispatch to `__call__`; in particular the first call of
the wrapped `sysinfo` with a query argument raises `TypeError` (its
`__init__` accepts no such parameter), leaves no instance behind, and
performs no query. -/
theorem c9_functor_first_call :
    (∀ {A I R : Type} (ini : A → Except Unit I) (c₁ c₂ : I → A → R) (a : A),
      functor_invoke ⟨ini, c₁⟩ none a = ((ini a).toOption, Except.map Sum.inl (ini a))
      ∧ functor_invoke ⟨ini, c₁⟩ none a = functor_invoke ⟨ini, c₂⟩ none a)
    ∧ (∀ {A I R : Type} (cls : PyCallable A I R) (i : I) (a : A),
      functor_invoke cls (some i) a = (some i, .ok (Sum.inr (cls.call i a))))
    ∧ (∀ q : List Char, functor_invoke sysinfoPy none (some q) = (none, .error ())) := by
  refine ⟨?_, ?_, ?_⟩
  · intro A I R ini c₁ c₂ a
    cases h : ini a with
    | error e =>
      constructor
      · simp [functor_invoke, h, Except.toOption, Except.map]
      · simp [functor_invoke, h]
    | ok inst =>
      constructor
      · simp [functor_invoke, h, Except.toOption, Except.map]
      · simp [functor_invoke, h]
  · intro A I R cls i a
    rfl
  · intro q
    rfl

/-- Unit suffix list of `cli_module.human_readable`. -/
def units : List (List Char) := [("K".data), ("M".data), ("G".data), ("T".data)]

/-- The division loop of `cli_module.human_readable`: while the value is
at least 1024 it is divided by 1024 and the unit index incremented.
The Python loop uses exact integer division when the value is an exact
multiple and float division otherwise; dividing a float by 1024 only
shifts its binary exponent, hence is exact, and the one rounding that
can occur (converting an int with more than 53 significant bits to
float) perturbs the value by a relative 2^-53, far too little to move
it across the `>= 1024` threshold at those magnitudes.  The iteration
count and final index therefore coincide with this integer-division
loop; the fractional part of the final value is irrelevant to the
index bound the claim is about. -/
def hrLoop (n i : Nat) : Nat × Nat :=
  if 1024 ≤ n then hrLoop (n / 1024) (i + 1) else (n, i)
termination_by n
decreasing_by exact Nat.div_lt_self (by omega) (by omega)

/-- Outcome of `cli_module.human_readable` on a non-negative integer:
`Except.error ()` models the `IndexError` raised by the lookup
`units[i - 1]` when the index leaves the four-element list; a normal
return carries the final numeric value and the chosen unit suffix. -/
def human_readable_outcome (n : Nat) : Except Unit (Nat × List Char) :=
  let p := hrLoop n 0
  if 0 < p.2 then
    match units[p.2 - 1]? with
    | some u => .ok (p.1, u)
    | none => .error ()
  else .ok (p.1, [])

theorem hrLoop_lt {n : Nat} (h : n < 1024) (i : Nat) : hrLoop n i = (n, i) := by
  rw [hrLoop]
  rw [if_neg (by omega)]

theorem hrLoop_eq :
    ∀ (k n i : Nat), 1024 ^ k ≤ n → n < 1024 ^ (k + 1) →
      hrLoop n i = (n / 1024 ^ k, i + k) := by
  intro k
  induction k with
  | zero =>
    intro n i h1 h2
    rw [hrLoop_lt (by simpa using h2)]
    simp
  | succ m ih =>
    intro n i h1 h2
    have h1024 : (1024 : Nat) ≤ n := by
      calc (1024 : Nat) = 1024 ^ 1 := by norm_num
      _ ≤ 1024 ^ (m + 1) := Nat.pow_le_pow_right (by omega) (by omega)
      _ ≤ n := h1
    rw [hrLoop, if_pos h1024]
    have hlow : 1024 ^ m ≤ n / 1024 := by
      rw [Nat.le_div_iff_mul_le (by omega)]
      calc 1024 ^ m * 1024 = 1024 ^ (m + 1) := by ring
      _ ≤ n := h1
    have hhigh : n / 1024 < 1024 ^ (m + 1) := by
      rw [Nat.div_lt_iff_lt_mul (by omega)]
      calc n < 1024 ^ (m + 1 + 1) := h2
      _ = 1024 ^ (m + 1) * 1024 := by ring
    rw [ih (n / 1024) (i + 1) hlow hhigh]
    rw [Nat.div_div_eq_div_mul]
    rw [show (1024 : Nat) * 1024 ^ m = 1024 ^ (m + 1) from by ring]
    simp only [Prod.mk.injEq]
    exact ⟨trivial, by omega⟩

/-- C10 -- `human_readable` returns normally for every integer
`0 <= n < 1024^5`, but for every `n >= 1024^5` the division loop drives
the unit index to at least 5 and the lookup `units[i - 1]` into the
four-element unit list is out of bounds, raising `IndexError`. -/
theorem c10_human_readable_bounds (n : Nat) :
    (n < 1024 ^ 5 → ∃ v u, human_readable_outcome n = .ok (v, u))
    ∧ (1024 ^ 5 ≤ n → human_readable_outcome n = .error () ∧ 5 ≤ (hrLoop n 0).2) := by
  constructor
  · intro hn
    by_cases hsmall : n < 1024
    · refine ⟨n, [], ?_⟩
      simp [human_readable_outcome, hrLoop_lt hsmall]
    · have hnz : n ≠ 0 := by omega
      have hk1 := Nat.pow_log_le_self 1024 hnz
      have hk2 := Nat.lt_pow_succ_log_self (by omega : (1 : Nat) < 1024) n
      have hloop := hrLoop_eq (Nat.log 1024 n) n 0 hk1 hk2
      simp only [Nat.zero_add] at hloop
      have hk5 : Nat.log 1024 n < 5 := by
        by_contra hcon
        have : (1024 : Nat) ^ 5 ≤ 1024 ^ Nat.log 1024 n :=
          Nat.pow_le_pow_right (by omega) (by omega)
        omega
      have hk0 : 1 ≤ Nat.log 1024 n := by
        have : (1024 : Nat) ^ 1 ≤ n := by simpa using (by omega : 1024 ≤ n)
        exact (Nat.pow_le_iff_le_log (by omega) hnz).mp this
      have hidx : Nat.log 1024 n - 1 < units.length := by
        simp only [units, List.length_cons, List.length_nil]
        omega
      refine ⟨n / 1024 ^ Nat.log 1024 n, units[Nat.log 1024 n - 1], ?_⟩
      simp only [human_readable_outcome, hloop]
      rw [if_pos (by omega)]
      rw [List.getElem?_eq_getElem hidx]
  · intro hn
    have hnz : n ≠ 0 := by positivity
    have hk1 := Nat.pow_log_le_self 1024 hnz
    have hk2 := Nat.lt_pow_succ_log_self (by omega : (1 : Nat) < 1024) n
    have hloop := hrLoop_eq (Nat.log 1024 n) n 0 hk1 hk2
    simp only [Nat.zero_add] at hloop
    have hk5 : 5 ≤ Nat.log 1024 n :=
      (Nat.pow_le_iff_le_log (by omega) hnz).mp hn
    have hidx : units.length ≤ Nat.log 1024 n - 1 := by
      simp only [units, List.length_cons, List.length_nil]
      omega
    constructor
    · simp only [human_readable_outcome, hloop]
      rw [if_pos (by omega)]
      rw [List.getElem?_eq_none hidx]
    · rw [hloop]
      simpa using hk5

/-- C10 (witness) -- 2048 bytes renders normally; at `1024^5` the unit
index reaches 5 and the lookup raises `IndexError`. -/
theorem c10_human_readable_bounds_witness :
    (∃ v u, human_readable_outcome 2048 = .ok (v, u))
    ∧ human_readable_outcome (1024 ^ 5) = .error ()
    ∧ 5 ≤ (hrLoop (1024 ^ 5) 0).2 := by
  refine ⟨(c10_human_readable_bounds 2048).1 (by norm_num), ?_, ?_⟩
  · exact ((c10_human_readable_bounds (1024 ^ 5)).2 (le_refl _)).1
  · exact ((c10_human_readable_bounds (1024 ^ 5)).2 (le_refl _)).2
